import Mathlib

/-!
Verification of the multi-instance optimizer coordination core
(`ParallelOptimizer` in `core/optimisers.py`): sharing-topology
generation, padding-point synthesis, the per-round request ledger and
the init/update lifecycle.

The Python code is shallowly embedded: the sharing matrix is a Lean
list of triples built exactly as the nested Python loops build it,
the per-round dictionaries `_parallel_id` / `_parallel_x` are
association lists, the floating-point padding arithmetic is modelled
over the reals, and Python exceptions are `Except` errors.

The file is organised with all definitions first, followed by the
supporting lemmas and the claim theorems.
-/

namespace QcOptim

/-! ## Definitions -/

/-- The four sharing modes accepted by `ParallelOptimizer.__init__`. -/
def recognizedMethods : List String := ["independent", "shared", "left", "right"]

/-- Errors surfaced by the coordination core.  `invalidTopology` stands for a
`ValueError` on an unrecognised sharing mode, `notImplementedMode` for
Python's `NotImplementedError`, `unknownRequest` for the `KeyError` a
ledger-dictionary miss raises, and `nameErrorSysUndefined` for the
`NameError` raised when a statement references the name `sys`, which
`optimisers.py` never imports. -/
inductive CoreError where
  | invalidTopology
  | notImplementedMode
  | unknownRequest
  | nameErrorSysUndefined
deriving DecidableEq, Repr

/-- Embedding of the method check at the top of `ParallelOptimizer.__init__`.
The first branch, taken when
`not method in ['independent','shared','left','right']`, executes
`print('method ...', file=sys.stderr)` before its `raise ValueError` — but
`sys` is never imported in `optimisers.py` (its module imports are numpy,
utilities, copy, cost and abc), so evaluating the argument `sys.stderr`
raises `NameError` and the `raise ValueError` line is never reached.  The
subsequent `elif method in ['random1','random2']: raise NotImplementedError`
is kept as in the source; it is unreachable because the first branch already
catches `random1`/`random2`.  The check runs before any optimiser list,
sharing matrix or ledger state is built. -/
def checkMethod (method : String) : Except CoreError Unit :=
  if ¬ (method = "independent" ∨ method = "shared" ∨ method = "left" ∨ method = "right") then
    Except.error CoreError.nameErrorSysUndefined
  else if method = "random1" ∨ method = "random2" then
    Except.error CoreError.notImplementedMode
  else
    Except.ok ()

/-- Embedding of `ParallelOptimizer._gen_sharing_matrix`: the list of
`(consumer, generator, point)` triples, built row by row exactly as the
Python nested loops do.  `n` is `len(self.optim_list)`. -/
def genSharingMatrix (method : String) (n : ℕ) : List (ℕ × ℕ × ℕ) :=
  if method = "shared" then
    (List.range n).flatMap (fun ii => (List.range n).map (fun jj => (ii, jj, jj)))
  else if method = "independent" then
    (List.range n).map (fun ii => (ii, ii, ii))
  else if method = "left" then
    (List.range n).flatMap (fun c =>
      (List.range n).map (fun g => if c ≥ g then (c, g, g) else (c, c, g)))
  else if method = "right" then
    (List.range n).flatMap (fun c =>
      (List.range n).map (fun g => if c ≤ g then (c, g, g) else (c, c, g)))
  else
    []

/-- The `(consumer, point)` pairs of the sharing entries whose consumer and
generator coincide (the entries backed by a point the consumer itself
generated, real or padding). -/
def consumerPointPairs (mat : List (ℕ × ℕ × ℕ)) : List (ℕ × ℕ) :=
  (mat.filter (fun t => decide (t.1 = t.2.1))).map (fun t => (t.1, t.2.2))

/-- The `(requester, point)` ledger keys written by
`ParallelOptimizer._get_padding_circuits`: one write per sharing entry with
`consumer_idx == requester_idx` and `requester_idx != pt_idx`, in matrix
order. -/
def paddingWrites (mat : List (ℕ × ℕ × ℕ)) : List (ℕ × ℕ) :=
  (mat.filter (fun t => decide (t.1 = t.2.1 ∧ ¬ t.2.1 = t.2.2))).map (fun t => (t.2.1, t.2.2))

/-- The full sequence of `(requester, point)` keys written into the freshly
cleared `_parallel_id` / `_parallel_x` dictionaries during
`ParallelOptimizer.next_evaluation_circuits`: first the diagonal key
`(cst_idx, cst_idx)` for every cost object, then the padding writes. -/
def requestRoundKeys (method : String) (n : ℕ) : List (ℕ × ℕ) :=
  (List.range n).map (fun i => (i, i)) ++ paddingWrites (genSharingMatrix method n)

/-- The sanity check at the end of `next_evaluation_circuits`: the assertion
compares `len(self._parallel_id.keys())` against the expected count for the
active method; `true` means the assertion passes. -/
def countAssert (method : String) (n count : ℕ) : Bool :=
  if method = "independent" ∨ method = "shared" then count = n
  else if method = "random1" ∨ method = "random2" then count = n * n
  else if method = "left" ∨ method = "right" then count = n * (n + 1) / 2
  else true

/-- `np.mod x y` for real `x` and positive real `y`: the representative of
`x` modulo `y` lying in `[0, y)`. -/
noncomputable def rmod (x y : ℝ) : ℝ := x - y * ⌊x / y⌋

/-- The summed per-coordinate minimum of `(a-b)²`, `(a+2π-b)²`, `(a-2π-b)²`
computed by `_find_min_dist` inside `_get_padding_circuits`, before the square
root. -/
noncomputable def minDispSq (d : ℕ) (a b : ℕ → ℝ) : ℝ :=
  ∑ k in Finset.range d,
    min (min ((a k - b k)^2) ((a k + 2*Real.pi - b k)^2)) ((a k - 2*Real.pi - b k)^2)

/-- Embedding of `_find_min_dist(a, b)`: Euclidean distance where every
coordinate difference may first be shifted by `±2π`. -/
noncomputable def findMinDist (d : ℕ) (a b : ℕ → ℝ) : ℝ := Real.sqrt (minDispSq d a b)

/-- The padding point synthesised by `_get_padding_circuits`:
`np.mod(generator_pt + random_displacement, 2*np.pi)` where
`random_displacement = dist * u` and `u` is the Gaussian draw normalised to
unit length (so `∑ (u k)² = 1`).  `d` is the ansatz parameter count
`self.cost_objs[requester_idx].ansatz.nb_params`. -/
noncomputable def paddingPoint (d : ℕ) (g : ℕ → ℝ) (dist : ℝ) (u : ℕ → ℝ) : ℕ → ℝ :=
  fun k => rmod (g k + dist * u k) (2*Real.pi)

/-- Dictionary lookup in a point-ledger (the Python dicts `_parallel_id` /
`_parallel_x` keyed by `(requesterIndex, pointIndex)`). -/
def lookupLedger {α : Type} (led : List ((ℕ × ℕ) × α)) (k : ℕ × ℕ) : Option α :=
  (led.find? (fun e => decide (e.1 = k))).map Prod.snd

/-- A ledger whose value at each recorded key `k` is `f k`. -/
def ledgerOfKeys {α : Type} (keys : List (ℕ × ℕ)) (f : ℕ × ℕ → α) : List ((ℕ × ℕ) × α) :=
  keys.map (fun k => (k, f k))

/-- One internal optimiser as the coordinator sees it: its accumulated
observation rows (the GPyOpt `opt.X` / `opt.Y` arrays, kept here as a single
list of `(x, y)` rows) and a count of the model fits performed on it. -/
structure OptimInstance (X Y : Type) where
  data : List (X × Y)
  fits : ℕ
deriving DecidableEq

/-- Replace the element at position `i` (Python `optim_list[evl]` mutation);
out-of-range indices leave the list unchanged. -/
def modifyAt {α : Type} : List α → ℕ → (α → α) → List α
  | [], _, _ => []
  | a :: l, 0, f => f a :: l
  | a :: l, i + 1, f => a :: modifyAt l i f

/-- Map a function receiving the positional index over a list, starting the
index count at `k`. -/
def mapIdxFrom {α β : Type} (k : ℕ) (f : ℕ → α → β) : List α → List β
  | [] => []
  | a :: l => f k a :: mapIdxFrom (k + 1) f l

/-- Embedding of `ParallelOptimizer._cross_evaluation`: look up the circuit
name in `_parallel_id` and the coordinate in `_parallel_x` at
`(optim_requester_idx, point_idx)` — a missing key raises (`KeyError`,
surfaced as `unknownRequest`) — then decode the cost.  `costs e i` stands for
`self.cost_objs[e].evaluate_cost(results_obj, name=i)` evaluated against the
round's results object. -/
def crossEvaluation {ι X Y : Type} (pId : List ((ℕ × ℕ) × ι)) (pX : List ((ℕ × ℕ) × X))
    (costs : ℕ → ι → Y) (cstEvalIdx optimRequesterIdx pointIdx : ℕ) :
    Except CoreError (X × Y) :=
  match lookupLedger pId (optimRequesterIdx, pointIdx),
      lookupLedger pX (optimRequesterIdx, pointIdx) with
  | some circName, some x => Except.ok (x, costs cstEvalIdx circName)
  | _, _ => Except.error CoreError.unknownRequest

/-- One iteration of the sharing loop of `ParallelOptimizer.update` (and of
`init_optimisers`): cross-evaluate the entry `(evl, req, par)` and append the
resulting `(x, y)` row to consumer `evl`'s data. -/
def shareStep {ι X Y : Type} (pId : List ((ℕ × ℕ) × ι)) (pX : List ((ℕ × ℕ) × X))
    (costs : ℕ → ι → Y) (insts : List (OptimInstance X Y)) (t : ℕ × ℕ × ℕ) :
    Except CoreError (List (OptimInstance X Y)) := do
  let xy ← crossEvaluation pId pX costs t.1 t.2.1 t.2.2
  pure (modifyAt insts t.1 (fun o => ⟨o.data ++ [xy], o.fits⟩))

/-- Embedding of `ParallelOptimizer.update`: the first loop walks the sharing
matrix in order, appending one observation per entry to its consumer; only
after that loop has finished does the second loop refit every instance's
model (`opt._update_model(...)`), counted here as `fits + 1`. -/
def updatePool {ι X Y : Type} (mat : List (ℕ × ℕ × ℕ)) (pId : List ((ℕ × ℕ) × ι))
    (pX : List ((ℕ × ℕ) × X)) (costs : ℕ → ι → Y) (insts : List (OptimInstance X Y)) :
    Except CoreError (List (OptimInstance X Y)) := do
  let insts1 ← mat.foldlM (shareStep pId pX costs) insts
  pure (insts1.map (fun o => ⟨o.data, o.fits + 1⟩))

/-- The `(consumer, generator, run)` triples `init_optimisers` builds:
`[(cc,0,run)]` when `share_init` else `[(cc,cc,run)]`, for `cc < n` and
`run < nb_init`. -/
def initSharingMatrix (shareInit : Bool) (n nbInit : ℕ) : List (ℕ × ℕ × ℕ) :=
  if shareInit then
    (List.range n).flatMap (fun cc => (List.range nbInit).map (fun run => (cc, 0, run)))
  else
    (List.range n).flatMap (fun cc => (List.range nbInit).map (fun run => (cc, cc, run)))

/-- The ledger keys `(cst_idx, pt_idx)` recorded by `gen_init_circuits`: with
`share_init` the loop runs over `[self.cost_objs[0]]` only (so only generator
index `0` appears), otherwise over all `n` cost objects; each records
`nb_init` random points. -/
def genInitKeys (shareInit : Bool) (n nbInit : ℕ) : List (ℕ × ℕ) :=
  (if shareInit then List.range 1 else List.range n).flatMap
    (fun cstIdx => (List.range nbInit).map (fun ptIdx => (cstIdx, ptIdx)))

/-- Embedding of `ParallelOptimizer.init_optimisers` run against the ledger
written by `gen_init_circuits` (ids `idf`, coordinates `xf`): the same append
loop as `update` over the init sharing triples, then one fit-only
`run_optimization(max_iter=0, eps=0)` per instance, counted as `fits + 1`
with no point proposal. -/
def initOptimisers {ι X Y : Type} (shareInit : Bool) (n nbInit : ℕ) (idf : ℕ × ℕ → ι)
    (xf : ℕ × ℕ → X) (costs : ℕ → ι → Y) (insts : List (OptimInstance X Y)) :
    Except CoreError (List (OptimInstance X Y)) := do
  let insts1 ← (initSharingMatrix shareInit n nbInit).foldlM
    (shareStep (ledgerOfKeys (genInitKeys shareInit n nbInit) idf)
      (ledgerOfKeys (genInitKeys shareInit n nbInit) xf) costs) insts
  pure (insts1.map (fun o => ⟨o.data, o.fits + 1⟩))

/-- The id-ledger left by `ParallelOptimizer.next_evaluation_circuits`: the
method body begins with `self._parallel_id = {}` (the `cleared` binding
below), discarding whatever ledger `prev` the previous round left, then
records the diagonal key for each cost object followed by the padding keys,
with round ids `idf`. -/
def nextEvalLedger {ι : Type} (method : String) (n : ℕ) (idf : ℕ × ℕ → ι)
    (prev : List ((ℕ × ℕ) × ι)) : List ((ℕ × ℕ) × ι) :=
  let cleared : List ((ℕ × ℕ) × ι) := []
  cleared ++ ledgerOfKeys (requestRoundKeys method n) idf

/-! ## Lemmas: sharing matrix shape -/

lemma genSharingMatrix_shared_def (n : ℕ) :
    genSharingMatrix "shared" n =
      (List.range n).flatMap (fun ii => (List.range n).map (fun jj => (ii, jj, jj))) := rfl

lemma genSharingMatrix_independent_def (n : ℕ) :
    genSharingMatrix "independent" n = (List.range n).map (fun ii => (ii, ii, ii)) := rfl

lemma genSharingMatrix_left_def (n : ℕ) :
    genSharingMatrix "left" n =
      (List.range n).flatMap (fun c =>
        (List.range n).map (fun g => if c ≥ g then (c, g, g) else (c, c, g))) := rfl

lemma genSharingMatrix_right_def (n : ℕ) :
    genSharingMatrix "right" n =
      (List.range n).flatMap (fun c =>
        (List.range n).map (fun g => if c ≤ g then (c, g, g) else (c, c, g))) := rfl

lemma mem_genSharingMatrix_shared {n : ℕ} {t : ℕ × ℕ × ℕ} :
    t ∈ genSharingMatrix "shared" n ↔ ∃ i < n, ∃ j < n, t = (i, j, j) := by
  rw [genSharingMatrix_shared_def]
  simp only [List.mem_flatMap, List.mem_map, List.mem_range]
  constructor
  · rintro ⟨i, hi, j, hj, rfl⟩
    exact ⟨i, hi, j, hj, rfl⟩
  · rintro ⟨i, hi, j, hj, rfl⟩
    exact ⟨i, hi, j, hj, rfl⟩

lemma mem_genSharingMatrix_independent {n : ℕ} {t : ℕ × ℕ × ℕ} :
    t ∈ genSharingMatrix "independent" n ↔ ∃ i < n, t = (i, i, i) := by
  rw [genSharingMatrix_independent_def]
  simp only [List.mem_map, List.mem_range]
  constructor
  · rintro ⟨i, hi, rfl⟩
    exact ⟨i, hi, rfl⟩
  · rintro ⟨i, hi, rfl⟩
    exact ⟨i, hi, rfl⟩

lemma mem_genSharingMatrix_left {n : ℕ} {t : ℕ × ℕ × ℕ} :
    t ∈ genSharingMatrix "left" n ↔
      ∃ c < n, ∃ g < n, t = if c ≥ g then (c, g, g) else (c, c, g) := by
  rw [genSharingMatrix_left_def]
  simp only [List.mem_flatMap, List.mem_map, List.mem_range]
  constructor
  · rintro ⟨c, hc, g, hg, rfl⟩
    exact ⟨c, hc, g, hg, rfl⟩
  · rintro ⟨c, hc, g, hg, rfl⟩
    exact ⟨c, hc, g, hg, rfl⟩

lemma mem_genSharingMatrix_right {n : ℕ} {t : ℕ × ℕ × ℕ} :
    t ∈ genSharingMatrix "right" n ↔
      ∃ c < n, ∃ g < n, t = if c ≤ g then (c, g, g) else (c, c, g) := by
  rw [genSharingMatrix_right_def]
  simp only [List.mem_flatMap, List.mem_map, List.mem_range]
  constructor
  · rintro ⟨c, hc, g, hg, rfl⟩
    exact ⟨c, hc, g, hg, rfl⟩
  · rintro ⟨c, hc, g, hg, rfl⟩
    exact ⟨c, hc, g, hg, rfl⟩

lemma length_flatMap_rows {β : Type} (n : ℕ) (f : ℕ → ℕ → β) :
    ((List.range n).flatMap (fun c => (List.range n).map (f c))).length = n * n := by
  rw [List.length_flatMap]
  simp only [Function.comp_def, List.length_map, List.length_range]
  rw [List.map_const', List.sum_replicate, List.length_range, smul_eq_mul]

lemma length_genSharingMatrix_shared (n : ℕ) :
    (genSharingMatrix "shared" n).length = n * n := by
  rw [genSharingMatrix_shared_def]; exact length_flatMap_rows n _

lemma length_genSharingMatrix_left (n : ℕ) :
    (genSharingMatrix "left" n).length = n * n := by
  rw [genSharingMatrix_left_def]; exact length_flatMap_rows n _

lemma length_genSharingMatrix_right (n : ℕ) :
    (genSharingMatrix "right" n).length = n * n := by
  rw [genSharingMatrix_right_def]; exact length_flatMap_rows n _

/-! ## Lemmas: counting (Gauss sums over triangular index sets) -/

lemma card_filter_le_range (a n : ℕ) : ((Finset.range n).filter (fun b => a ≤ b)).card = n - a := by
  induction n with
  | zero => simp
  | succ m ih =>
    rw [Finset.range_succ, Finset.filter_insert]
    by_cases h : a ≤ m
    · rw [if_pos h, Finset.card_insert_of_not_mem (by simp), ih]
      omega
    · rw [if_neg h, ih]
      omega

lemma two_mul_sum_sub (n : ℕ) : 2 * (∑ a in Finset.range n, (n - a)) = n * (n + 1) := by
  have h : (∑ a in Finset.range n, (n - a)) = ∑ a in Finset.range n, (a + 1) := by
    rw [← Finset.sum_range_reflect]
    apply Finset.sum_congr rfl
    intro a ha
    simp only [Finset.mem_range] at ha
    omega
  rw [h, Finset.sum_add_distrib, Finset.sum_const, Finset.card_range, smul_eq_mul, mul_one]
  have h2 := Finset.sum_range_id_mul_two n
  have h3 : n * (n + 1) = n * (n - 1) + 2 * n := by
    cases n with
    | zero => rfl
    | succ m => simp only [Nat.succ_sub_one]; ring
  omega

lemma two_mul_card_le (n : ℕ) :
    2 * ((Finset.range n ×ˢ Finset.range n).filter (fun p : ℕ × ℕ => p.1 ≤ p.2)).card
      = n * (n + 1) := by
  rw [Finset.card_filter, Finset.sum_product]
  have h : ∀ a ∈ Finset.range n, (∑ b in Finset.range n, if a ≤ b then 1 else 0) = n - a := by
    intro a _
    rw [← Finset.card_filter]
    exact card_filter_le_range a n
  rw [Finset.sum_congr rfl h]
  exact two_mul_sum_sub n

lemma two_mul_card_ge (n : ℕ) :
    2 * ((Finset.range n ×ˢ Finset.range n).filter (fun p : ℕ × ℕ => p.2 ≤ p.1)).card
      = n * (n + 1) := by
  have key : ((Finset.range n ×ˢ Finset.range n).filter (fun p : ℕ × ℕ => p.2 ≤ p.1)).card
      = ((Finset.range n ×ˢ Finset.range n).filter (fun p : ℕ × ℕ => p.1 ≤ p.2)).card := by
    apply Finset.card_bij (fun p _ => (p.2, p.1))
    · rintro ⟨a, b⟩ hp
      simp only [Finset.mem_filter, Finset.mem_product, Finset.mem_range] at hp ⊢
      exact ⟨⟨hp.1.2, hp.1.1⟩, hp.2⟩
    · rintro ⟨a, b⟩ ha ⟨c, d⟩ hc h
      simp only [Prod.mk.injEq] at h
      simp [h.1, h.2]
    · rintro ⟨a, b⟩ hp
      refine ⟨(b, a), ?_, rfl⟩
      simp only [Finset.mem_filter, Finset.mem_product, Finset.mem_range] at hp ⊢
      exact ⟨⟨hp.1.2, hp.1.1⟩, hp.2⟩
  rw [key, two_mul_card_le]

/-! ## Lemmas: the request-round ledger keys -/

lemma pairs_left_toFinset (n : ℕ) : (consumerPointPairs (genSharingMatrix "left" n)).toFinset
    = (Finset.range n ×ˢ Finset.range n).filter (fun p : ℕ × ℕ => p.1 ≤ p.2) := by
  ext ⟨a, b⟩
  simp only [consumerPointPairs, genSharingMatrix_left_def, List.mem_toFinset, List.mem_map,
    List.mem_filter, List.mem_flatMap, List.mem_range, Finset.mem_filter, Finset.mem_product,
    Finset.mem_range, decide_eq_true_eq]
  constructor
  · rintro ⟨t, ⟨⟨c, hc, g, hg, rfl⟩, hcg⟩, heq⟩
    by_cases h : c ≥ g
    · rw [if_pos h] at hcg heq
      simp only [Prod.mk.injEq] at heq hcg
      omega
    · rw [if_neg h] at hcg heq
      simp only [Prod.mk.injEq] at heq hcg
      omega
  · rintro ⟨⟨ha, hb⟩, hab⟩
    by_cases h : a = b
    · refine ⟨(a, a, a), ⟨⟨a, ha, a, ha, by simp⟩, rfl⟩, by simp [h]⟩
    · refine ⟨(a, a, b), ⟨⟨a, ha, b, hb, ?_⟩, rfl⟩, rfl⟩
      rw [if_neg (by omega)]

lemma pairs_right_toFinset (n : ℕ) : (consumerPointPairs (genSharingMatrix "right" n)).toFinset
    = (Finset.range n ×ˢ Finset.range n).filter (fun p : ℕ × ℕ => p.2 ≤ p.1) := by
  ext ⟨a, b⟩
  simp only [consumerPointPairs, genSharingMatrix_right_def, List.mem_toFinset, List.mem_map,
    List.mem_filter, List.mem_flatMap, List.mem_range, Finset.mem_filter, Finset.mem_product,
    Finset.mem_range, decide_eq_true_eq]
  constructor
  · rintro ⟨t, ⟨⟨c, hc, g, hg, rfl⟩, hcg⟩, heq⟩
    by_cases h : c ≤ g
    · rw [if_pos h] at hcg heq
      simp only [Prod.mk.injEq] at heq hcg
      omega
    · rw [if_neg h] at hcg heq
      simp only [Prod.mk.injEq] at heq hcg
      omega
  · rintro ⟨⟨ha, hb⟩, hab⟩
    by_cases h : a = b
    · refine ⟨(a, a, a), ⟨⟨a, ha, a, ha, by simp⟩, rfl⟩, by simp [h]⟩
    · refine ⟨(a, a, b), ⟨⟨a, ha, b, hb, ?_⟩, rfl⟩, rfl⟩
      rw [if_neg (by omega)]

lemma paddingWrites_shared (n : ℕ) : paddingWrites (genSharingMatrix "shared" n) = [] := by
  unfold paddingWrites
  rw [List.filter_eq_nil_iff.mpr, List.map_nil]
  intro t ht
  rcases mem_genSharingMatrix_shared.mp ht with ⟨i, hi, j, hj, rfl⟩
  simp

lemma paddingWrites_independent (n : ℕ) :
    paddingWrites (genSharingMatrix "independent" n) = [] := by
  unfold paddingWrites
  rw [List.filter_eq_nil_iff.mpr, List.map_nil]
  intro t ht
  rcases mem_genSharingMatrix_independent.mp ht with ⟨i, hi, rfl⟩
  simp

lemma keys_left_toFinset (n : ℕ) : (requestRoundKeys "left" n).toFinset
    = (Finset.range n ×ˢ Finset.range n).filter (fun p : ℕ × ℕ => p.1 ≤ p.2) := by
  ext ⟨a, b⟩
  simp only [requestRoundKeys, paddingWrites, genSharingMatrix_left_def, List.toFinset_append,
    Finset.mem_union, List.mem_toFinset, List.mem_map, List.mem_filter, List.mem_flatMap,
    List.mem_range, Finset.mem_filter, Finset.mem_product, Finset.mem_range, decide_eq_true_eq,
    Prod.mk.injEq]
  constructor
  · rintro (⟨i, hi, rfl, rfl⟩ | ⟨t, ⟨⟨c, hc, g, hg, rfl⟩, hcg⟩, heq⟩)
    · omega
    · by_cases h : c ≥ g
      · rw [if_pos h] at hcg heq
        simp only at heq hcg
        omega
      · rw [if_neg h] at hcg heq
        simp only at heq hcg
        omega
  · rintro ⟨⟨ha, hb⟩, hab⟩
    by_cases h : a = b
    · exact Or.inl ⟨a, ha, rfl, h⟩
    · refine Or.inr ⟨(a, a, b), ⟨⟨a, ha, b, hb, ?_⟩, by simp; omega⟩, rfl, rfl⟩
      rw [if_neg (by omega)]

lemma keys_right_toFinset (n : ℕ) : (requestRoundKeys "right" n).toFinset
    = (Finset.range n ×ˢ Finset.range n).filter (fun p : ℕ × ℕ => p.2 ≤ p.1) := by
  ext ⟨a, b⟩
  simp only [requestRoundKeys, paddingWrites, genSharingMatrix_right_def, List.toFinset_append,
    Finset.mem_union, List.mem_toFinset, List.mem_map, List.mem_filter, List.mem_flatMap,
    List.mem_range, Finset.mem_filter, Finset.mem_product, Finset.mem_range, decide_eq_true_eq,
    Prod.mk.injEq]
  constructor
  · rintro (⟨i, hi, rfl, rfl⟩ | ⟨t, ⟨⟨c, hc, g, hg, rfl⟩, hcg⟩, heq⟩)
    · omega
    · by_cases h : c ≤ g
      · rw [if_pos h] at hcg heq
        simp only at heq hcg
        omega
      · rw [if_neg h] at hcg heq
        simp only at heq hcg
        omega
  · rintro ⟨⟨ha, hb⟩, hab⟩
    by_cases h : a = b
    · exact Or.inl ⟨a, ha, rfl, h⟩
    · refine Or.inr ⟨(a, a, b), ⟨⟨a, ha, b, hb, ?_⟩, by simp; omega⟩, rfl, rfl⟩
      rw [if_neg (by omega)]

lemma nodup_diag_keys (n : ℕ) : ((List.range n).map (fun i => ((i : ℕ), (i : ℕ)))).Nodup :=
  (List.nodup_range n).map (fun a b h => by simpa using congrArg Prod.fst h)

lemma card_keys_shared (n : ℕ) : (requestRoundKeys "shared" n).toFinset.card = n := by
  rw [requestRoundKeys, paddingWrites_shared, List.append_nil,
    List.toFinset_card_of_nodup (nodup_diag_keys n), List.length_map, List.length_range]

lemma card_keys_independent (n : ℕ) :
    (requestRoundKeys "independent" n).toFinset.card = n := by
  rw [requestRoundKeys, paddingWrites_independent, List.append_nil,
    List.toFinset_card_of_nodup (nodup_diag_keys n), List.length_map, List.length_range]

lemma card_keys_left (n : ℕ) :
    2 * (requestRoundKeys "left" n).toFinset.card = n * (n + 1) := by
  rw [keys_left_toFinset]
  exact two_mul_card_le n

lemma card_keys_right (n : ℕ) :
    2 * (requestRoundKeys "right" n).toFinset.card = n * (n + 1) := by
  rw [keys_right_toFinset]
  exact two_mul_card_ge n

/-! ## Lemmas: duplicate-freeness of the ledger writes -/

lemma filter_flatMap' {α β : Type} (l : List α) (f : α → List β) (p : β → Bool) :
    (l.flatMap f).filter p = l.flatMap (fun a => (f a).filter p) := by
  induction l with
  | nil => rfl
  | cons a l ih => simp only [List.flatMap_cons, List.filter_append, ih]

lemma map_flatMap' {α β γ : Type} (l : List α) (f : α → List β) (g : β → γ) :
    (l.flatMap f).map g = l.flatMap (fun a => (f a).map g) := by
  induction l with
  | nil => rfl
  | cons a l ih => simp only [List.flatMap_cons, List.map_append, ih]

lemma filter_map' {α β : Type} (l : List α) (f : α → β) (p : β → Bool) :
    (l.map f).filter p = (l.filter (fun a => p (f a))).map f := by
  induction l with
  | nil => rfl
  | cons a l ih =>
    simp only [List.map_cons, List.filter_cons]
    by_cases h : p (f a)
    · simp [h, ih]
    · simp [h, ih]

lemma paddingWrites_left_eq (n : ℕ) :
    paddingWrites (genSharingMatrix "left" n)
      = (List.range n).flatMap (fun c =>
          ((List.range n).filter (fun g => decide (c < g))).map (fun g => (c, g))) := by
  rw [paddingWrites, genSharingMatrix_left_def, filter_flatMap', map_flatMap']
  apply congrArg
  funext c
  rw [filter_map']
  have hpred : ∀ g ∈ List.range n,
      (decide ((if c ≥ g then ((c, g, g) : ℕ × ℕ × ℕ) else (c, c, g)).1 =
          (if c ≥ g then ((c, g, g) : ℕ × ℕ × ℕ) else (c, c, g)).2.1 ∧
        ¬ (if c ≥ g then ((c, g, g) : ℕ × ℕ × ℕ) else (c, c, g)).2.1 =
          (if c ≥ g then ((c, g, g) : ℕ × ℕ × ℕ) else (c, c, g)).2.2))
      = decide (c < g) := by
    intro g _
    by_cases h : c ≥ g
    · rw [if_pos h]
      simp only [decide_eq_decide]
      simp
      omega
    · rw [if_neg h]
      simp only [decide_eq_decide]
      simp
      omega
  rw [List.filter_congr hpred, List.map_map]
  apply List.map_congr_left
  intro g hg
  simp only [List.mem_filter, List.mem_range, decide_eq_true_eq] at hg
  simp only [Function.comp_apply]
  rw [if_neg (by omega)]

lemma paddingWrites_right_eq (n : ℕ) :
    paddingWrites (genSharingMatrix "right" n)
      = (List.range n).flatMap (fun c =>
          ((List.range n).filter (fun g => decide (g < c))).map (fun g => (c, g))) := by
  rw [paddingWrites, genSharingMatrix_right_def, filter_flatMap', map_flatMap']
  apply congrArg
  funext c
  rw [filter_map']
  have hpred : ∀ g ∈ List.range n,
      (decide ((if c ≤ g then ((c, g, g) : ℕ × ℕ × ℕ) else (c, c, g)).1 =
          (if c ≤ g then ((c, g, g) : ℕ × ℕ × ℕ) else (c, c, g)).2.1 ∧
        ¬ (if c ≤ g then ((c, g, g) : ℕ × ℕ × ℕ) else (c, c, g)).2.1 =
          (if c ≤ g then ((c, g, g) : ℕ × ℕ × ℕ) else (c, c, g)).2.2))
      = decide (g < c) := by
    intro g _
    by_cases h : c ≤ g
    · rw [if_pos h]
      simp only [decide_eq_decide]
      simp
      omega
    · rw [if_neg h]
      simp only [decide_eq_decide]
      simp
      omega
  rw [List.filter_congr hpred, List.map_map]
  apply List.map_congr_left
  intro g hg
  simp only [List.mem_filter, List.mem_range, decide_eq_true_eq] at hg
  simp only [Function.comp_apply]
  rw [if_neg (by omega)]

lemma nodup_paddingWrites_left (n : ℕ) : (paddingWrites (genSharingMatrix "left" n)).Nodup := by
  rw [paddingWrites_left_eq, List.nodup_flatMap]
  constructor
  · intro c _
    exact ((List.nodup_range n).filter _).map
      (fun a b h => by simpa using congrArg Prod.snd h)
  · apply List.Pairwise.imp ?_ (List.pairwise_lt_range n)
    intro a b hab
    intro x hxa hxb
    simp only [List.mem_map, List.mem_filter, List.mem_range, decide_eq_true_eq] at hxa hxb
    obtain ⟨g1, hg1, rfl⟩ := hxa
    obtain ⟨g2, hg2, heq⟩ := hxb
    simp only [Prod.mk.injEq] at heq
    omega

lemma nodup_paddingWrites_right (n : ℕ) : (paddingWrites (genSharingMatrix "right" n)).Nodup := by
  rw [paddingWrites_right_eq, List.nodup_flatMap]
  constructor
  · intro c _
    exact ((List.nodup_range n).filter _).map
      (fun a b h => by simpa using congrArg Prod.snd h)
  · apply List.Pairwise.imp ?_ (List.pairwise_lt_range n)
    intro a b hab
    intro x hxa hxb
    simp only [List.mem_map, List.mem_filter, List.mem_range, decide_eq_true_eq] at hxa hxb
    obtain ⟨g1, hg1, rfl⟩ := hxa
    obtain ⟨g2, hg2, heq⟩ := hxb
    simp only [Prod.mk.injEq] at heq
    omega

lemma nodup_requestRoundKeys_left (n : ℕ) : (requestRoundKeys "left" n).Nodup := by
  rw [requestRoundKeys, List.nodup_append]
  refine ⟨nodup_diag_keys n, nodup_paddingWrites_left n, ?_⟩
  intro x hxd hxp
  simp only [List.mem_map, List.mem_range] at hxd
  obtain ⟨i, hi, rfl⟩ := hxd
  rw [paddingWrites_left_eq] at hxp
  simp only [List.mem_flatMap, List.mem_map, List.mem_filter, List.mem_range,
    decide_eq_true_eq] at hxp
  obtain ⟨c, hc, g, ⟨hg, hcg⟩, heq⟩ := hxp
  simp only [Prod.mk.injEq] at heq
  omega

lemma nodup_requestRoundKeys_right (n : ℕ) : (requestRoundKeys "right" n).Nodup := by
  rw [requestRoundKeys, List.nodup_append]
  refine ⟨nodup_diag_keys n, nodup_paddingWrites_right n, ?_⟩
  intro x hxd hxp
  simp only [List.mem_map, List.mem_range] at hxd
  obtain ⟨i, hi, rfl⟩ := hxd
  rw [paddingWrites_right_eq] at hxp
  simp only [List.mem_flatMap, List.mem_map, List.mem_filter, List.mem_range,
    decide_eq_true_eq] at hxp
  obtain ⟨c, hc, g, ⟨hg, hcg⟩, heq⟩ := hxp
  simp only [Prod.mk.injEq] at heq
  omega

lemma card_keys_left_eq (n : ℕ) :
    (requestRoundKeys "left" n).toFinset.card = n * (n + 1) / 2 := by
  have h := card_keys_left n
  omega

lemma card_keys_right_eq (n : ℕ) :
    (requestRoundKeys "right" n).toFinset.card = n * (n + 1) / 2 := by
  have h := card_keys_right n
  omega

lemma card_keys_left_as_sum (n : ℕ) : (requestRoundKeys "left" n).toFinset.card
    = n + (paddingWrites (genSharingMatrix "left" n)).length := by
  rw [List.toFinset_card_of_nodup (nodup_requestRoundKeys_left n), requestRoundKeys,
    List.length_append, List.length_map, List.length_range]

lemma card_keys_right_as_sum (n : ℕ) : (requestRoundKeys "right" n).toFinset.card
    = n + (paddingWrites (genSharingMatrix "right" n)).length := by
  rw [List.toFinset_card_of_nodup (nodup_requestRoundKeys_right n), requestRoundKeys,
    List.length_append, List.length_map, List.length_range]

lemma countAssert_keys (method : String) (n : ℕ) (hm : method ∈ recognizedMethods) :
    countAssert method n (requestRoundKeys method n).toFinset.card = true := by
  simp only [recognizedMethods, List.mem_cons, List.not_mem_nil, or_false] at hm
  rcases hm with rfl | rfl | rfl | rfl
  · rw [countAssert, if_pos (Or.inl rfl), card_keys_independent]
    simp
  · rw [countAssert, if_pos (Or.inr rfl), card_keys_shared]
    simp
  · rw [countAssert, if_neg (by decide), if_neg (by decide), if_pos (Or.inl rfl),
      card_keys_left_eq]
    simp
  · rw [countAssert, if_neg (by decide), if_neg (by decide), if_pos (Or.inr rfl),
      card_keys_right_eq]
    simp

/-! ## Lemmas: ledger lookups -/

lemma lookup_ledgerOfKeys {α : Type} (keys : List (ℕ × ℕ)) (f : ℕ × ℕ → α) (k : ℕ × ℕ)
    (hk : k ∈ keys) : lookupLedger (ledgerOfKeys keys f) k = some (f k) := by
  induction keys with
  | nil => cases hk
  | cons k0 rest ih =>
    by_cases h : k0 = k
    · subst h
      rw [lookupLedger, ledgerOfKeys, List.map_cons, List.find?_cons]
      simp
    · rw [lookupLedger, ledgerOfKeys, List.map_cons, List.find?_cons]
      have hd : decide ((k0, f k0).1 = k) = false := by simpa using h
      rw [hd]
      rcases List.mem_cons.mp hk with rfl | hk2
      · exact absurd rfl h
      · exact ih hk2

lemma crossEvaluation_ok {ι X Y : Type} (keys : List (ℕ × ℕ)) (idf : ℕ × ℕ → ι)
    (xf : ℕ × ℕ → X) (costs : ℕ → ι → Y) (e r p : ℕ) (hk : (r, p) ∈ keys) :
    crossEvaluation (ledgerOfKeys keys idf) (ledgerOfKeys keys xf) costs e r p
      = Except.ok (xf (r, p), costs e (idf (r, p))) := by
  rw [crossEvaluation, lookup_ledgerOfKeys keys idf (r, p) hk,
    lookup_ledgerOfKeys keys xf (r, p) hk]

lemma mem_paddingWrites_of {mat : List (ℕ × ℕ × ℕ)} {t : ℕ × ℕ × ℕ} (ht : t ∈ mat)
    (h1 : t.1 = t.2.1) (h2 : t.2.1 ≠ t.2.2) : (t.2.1, t.2.2) ∈ paddingWrites mat := by
  rw [paddingWrites]
  exact List.mem_map.mpr ⟨t, List.mem_filter.mpr ⟨ht, by simp [h1, h2]⟩, rfl⟩

lemma sharing_key_mem_requestRoundKeys {method : String} {n : ℕ}
    (hm : method ∈ recognizedMethods) {t : ℕ × ℕ × ℕ} (ht : t ∈ genSharingMatrix method n) :
    (t.2.1, t.2.2) ∈ requestRoundKeys method n := by
  have hdiag : ∀ i, i < n → ((i : ℕ), (i : ℕ)) ∈ requestRoundKeys method n := by
    intro i hi
    exact List.mem_append_left _ (List.mem_map.mpr ⟨i, List.mem_range.mpr hi, rfl⟩)
  simp only [recognizedMethods, List.mem_cons, List.not_mem_nil, or_false] at hm
  rcases hm with rfl | rfl | rfl | rfl
  · rcases mem_genSharingMatrix_independent.mp ht with ⟨i, hi, rfl⟩
    exact hdiag i hi
  · rcases mem_genSharingMatrix_shared.mp ht with ⟨i, hi, j, hj, rfl⟩
    exact hdiag j hj
  · rcases mem_genSharingMatrix_left.mp ht with ⟨c, hc, g, hg, rfl⟩
    by_cases h : c ≥ g
    · rw [if_pos h]
      exact hdiag g hg
    · rw [if_neg h]
      rw [if_neg h] at ht
      exact List.mem_append_right _ (mem_paddingWrites_of ht rfl (show c ≠ g by omega))
  · rcases mem_genSharingMatrix_right.mp ht with ⟨c, hc, g, hg, rfl⟩
    by_cases h : c ≤ g
    · rw [if_pos h]
      exact hdiag g hg
    · rw [if_neg h]
      rw [if_neg h] at ht
      exact List.mem_append_right _ (mem_paddingWrites_of ht rfl (show c ≠ g by omega))

/-! ## Claims C1, C2, C6 -/

/-- Claim C1: for every `n ≥ 1`, the sharing matrix for mode `left` contains,
for each consumer `i` and generator `j` in `[0,n)`, the entry `(i, j, j)` if
`i ≥ j` and the entry `(i, i, j)` otherwise; mode `right` is the mirror with
the comparison `i ≤ j`; each matrix has exactly `n²` entries; and the entries
with consumer = generator carry exactly `n(n+1)/2` distinct
`(consumer, point)` pairs. -/
theorem c1_left_right_sharing_matrix (n : ℕ) (hn : 1 ≤ n) :
    (∀ i < n, ∀ j < n,
        (if i ≥ j then ((i, j, j) : ℕ × ℕ × ℕ) else (i, i, j)) ∈ genSharingMatrix "left" n ∧
        (if i ≤ j then ((i, j, j) : ℕ × ℕ × ℕ) else (i, i, j)) ∈ genSharingMatrix "right" n) ∧
    (genSharingMatrix "left" n).length = n * n ∧
    (genSharingMatrix "right" n).length = n * n ∧
    (consumerPointPairs (genSharingMatrix "left" n)).toFinset.card = n * (n + 1) / 2 ∧
    (consumerPointPairs (genSharingMatrix "right" n)).toFinset.card = n * (n + 1) / 2 := by
  refine ⟨?_, length_genSharingMatrix_left n, length_genSharingMatrix_right n, ?_, ?_⟩
  · intro i hi j hj
    exact ⟨mem_genSharingMatrix_left.mpr ⟨i, hi, j, hj, rfl⟩,
      mem_genSharingMatrix_right.mpr ⟨i, hi, j, hj, rfl⟩⟩
  · have h := two_mul_card_le n
    rw [← pairs_left_toFinset] at h
    omega
  · have h := two_mul_card_ge n
    rw [← pairs_right_toFinset] at h
    omega

/-- Witness for C1 at `n = 2`. -/
theorem c1_left_right_sharing_matrix_witness :
    1 ≤ 2 ∧
    ((∀ i < 2, ∀ j < 2,
        (if i ≥ j then ((i, j, j) : ℕ × ℕ × ℕ) else (i, i, j)) ∈ genSharingMatrix "left" 2 ∧
        (if i ≤ j then ((i, j, j) : ℕ × ℕ × ℕ) else (i, i, j)) ∈ genSharingMatrix "right" 2) ∧
      (genSharingMatrix "left" 2).length = 2 * 2 ∧
      (genSharingMatrix "right" 2).length = 2 * 2 ∧
      (consumerPointPairs (genSharingMatrix "left" 2)).toFinset.card = 2 * (2 + 1) / 2 ∧
      (consumerPointPairs (genSharingMatrix "right" 2)).toFinset.card = 2 * (2 + 1) / 2) :=
  ⟨by decide, c1_left_right_sharing_matrix 2 (by decide)⟩

/-- Claim C2: for every `n ≥ 1`, the sharing matrix for mode `independent` is
exactly `{(i, i, i) : i < n}` (size `n`), and for mode `shared` exactly
`{(i, j, j) : i, j < n}` (size `n²`). -/
theorem c2_independent_shared_sharing_matrix (n : ℕ) (hn : 1 ≤ n) :
    ((genSharingMatrix "independent" n).length = n ∧
      ∀ t : ℕ × ℕ × ℕ, t ∈ genSharingMatrix "independent" n ↔ ∃ i < n, t = (i, i, i)) ∧
    ((genSharingMatrix "shared" n).length = n * n ∧
      ∀ t : ℕ × ℕ × ℕ, t ∈ genSharingMatrix "shared" n ↔ ∃ i < n, ∃ j < n, t = (i, j, j)) := by
  refine ⟨⟨?_, fun t => mem_genSharingMatrix_independent⟩,
    ⟨length_genSharingMatrix_shared n, fun t => mem_genSharingMatrix_shared⟩⟩
  rw [genSharingMatrix_independent_def, List.length_map, List.length_range]

/-- Witness for C2 at `n = 2`. -/
theorem c2_independent_shared_sharing_matrix_witness :
    1 ≤ 2 ∧
    (((genSharingMatrix "independent" 2).length = 2 ∧
        ∀ t : ℕ × ℕ × ℕ, t ∈ genSharingMatrix "independent" 2 ↔ ∃ i < 2, t = (i, i, i)) ∧
      ((genSharingMatrix "shared" 2).length = 2 * 2 ∧
        ∀ t : ℕ × ℕ × ℕ, t ∈ genSharingMatrix "shared" 2 ↔ ∃ i < 2, ∃ j < 2, t = (i, j, j))) :=
  ⟨by decide, c2_independent_shared_sharing_matrix 2 (by decide)⟩

/-- Claim C6 (code bug): the claim says construction fails with
`InvalidTopology` for modes outside the six and with `NotImplemented` for
`random1` / `random2`.  The source does neither.  Its unrecognised-mode
branch — which also catches `random1` / `random2`, since they are not in
`['independent','shared','left','right']` — first executes
`print(..., file=sys.stderr)`, and `sys` is never imported in
`optimisers.py`, so every unrecognised mode raises `NameError`; the
`raise ValueError` on the next line and the dedicated
`elif method in ['random1','random2']: raise NotImplementedError` branch are
both dead code.  This theorem evaluates the embedded check at the failing
inputs and certifies that neither `NotImplemented` nor `InvalidTopology`
(`ValueError`) is ever produced, for any input whatsoever. -/
theorem c6_unrecognized_modes_raise_name_error :
    checkMethod "random1" = Except.error CoreError.nameErrorSysUndefined ∧
    checkMethod "random2" = Except.error CoreError.nameErrorSysUndefined ∧
    checkMethod "bogus" = Except.error CoreError.nameErrorSysUndefined ∧
    (∀ m : String, m ∉ recognizedMethods →
      checkMethod m = Except.error CoreError.nameErrorSysUndefined) ∧
    (∀ m : String, checkMethod m ≠ Except.error CoreError.notImplementedMode) ∧
    (∀ m : String, checkMethod m ≠ Except.error CoreError.invalidTopology) := by
  have hrec : ∀ m : String,
      (m = "independent" ∨ m = "shared" ∨ m = "left" ∨ m = "right") →
      checkMethod m = Except.ok () := by
    intro m h
    rw [checkMethod, if_neg (not_not_intro h)]
    have hr : ¬ (m = "random1" ∨ m = "random2") := by
      rcases h with rfl | rfl | rfl | rfl <;> decide
    rw [if_neg hr]
  refine ⟨rfl, rfl, rfl, ?_, ?_, ?_⟩
  · intro m hm
    rw [checkMethod, if_pos]
    simp only [recognizedMethods, List.mem_cons, List.not_mem_nil, or_false] at hm
    tauto
  · intro m
    by_cases h : m = "independent" ∨ m = "shared" ∨ m = "left" ∨ m = "right"
    · rw [hrec m h]
      exact fun hc => Except.noConfusion hc
    · rw [checkMethod, if_pos h]
      intro hc
      exact CoreError.noConfusion (Except.error.inj hc)
  · intro m
    by_cases h : m = "independent" ∨ m = "shared" ∨ m = "left" ∨ m = "right"
    · rw [hrec m h]
      exact fun hc => Except.noConfusion hc
    · rw [checkMethod, if_pos h]
      intro hc
      exact CoreError.noConfusion (Except.error.inj hc)

/-! ## Lemmas: positional list surgery for the optimiser pool -/

lemma length_modifyAt {α : Type} (l : List α) (i : ℕ) (f : α → α) :
    (modifyAt l i f).length = l.length := by
  induction l generalizing i with
  | nil => rfl
  | cons a l ih =>
    cases i with
    | zero => rfl
    | succ j => simp [modifyAt, ih]

lemma getElem?_modifyAt {α : Type} (l : List α) (j : ℕ) (f : α → α) (i : ℕ) :
    (modifyAt l j f)[i]? = if i = j then (l[i]?).map f else l[i]? := by
  induction l generalizing i j with
  | nil => simp [modifyAt]
  | cons a l ih =>
    cases j with
    | zero =>
      cases i with
      | zero => simp [modifyAt]
      | succ i2 => simp [modifyAt]
    | succ j2 =>
      cases i with
      | zero => simp [modifyAt]
      | succ i2 => simp [modifyAt, ih]

lemma getElem?_mapIdxFrom {α β : Type} (f : ℕ → α → β) (l : List α) (k i : ℕ) :
    (mapIdxFrom k f l)[i]? = (l[i]?).map (f (k + i)) := by
  induction l generalizing k i with
  | nil => simp [mapIdxFrom]
  | cons a l ih =>
    cases i with
    | zero => simp [mapIdxFrom]
    | succ i2 =>
      have he : k + 1 + i2 = k + (i2 + 1) := by omega
      simp only [mapIdxFrom, List.getElem?_cons_succ, ih (k+1) i2, he]

lemma mapIdxFrom_eq_self {α : Type} (k : ℕ) (f : ℕ → α → α) (l : List α)
    (h : ∀ i a, f i a = a) : mapIdxFrom k f l = l := by
  induction l generalizing k with
  | nil => rfl
  | cons a l ih => simp [mapIdxFrom, h, ih]

lemma map_mapIdxFrom {α β γ : Type} (k : ℕ) (f : ℕ → α → β) (h : β → γ) (l : List α) :
    (mapIdxFrom k f l).map h = mapIdxFrom k (fun i a => h (f i a)) l := by
  induction l generalizing k with
  | nil => rfl
  | cons a l ih => simp [mapIdxFrom, ih]

lemma mapIdxFrom_congr {α β : Type} (f g : ℕ → α → β) :
    ∀ (k : ℕ) (l : List α),
    (∀ i, i < l.length → ∀ a, f (k + i) a = g (k + i) a) →
    mapIdxFrom k f l = mapIdxFrom k g l := by
  intro k l
  induction l generalizing k with
  | nil => intro _; rfl
  | cons a l ih =>
    intro h
    have h0 : f k a = g k a := by
      have := h 0 (by simp) a
      simpa using this
    have htail : ∀ i, i < l.length → ∀ a2, f (k + 1 + i) a2 = g (k + 1 + i) a2 := by
      intro i hi a2
      have he : k + 1 + i = k + (i + 1) := by omega
      rw [he]
      exact h (i + 1) (by simpa using Nat.succ_lt_succ hi) a2
    simp [mapIdxFrom, h0, ih (k + 1) htail]

/-- If every sharing entry cross-evaluates successfully to `r t`, the update
loop of `ParallelOptimizer.update` succeeds and appends, to each instance `i`,
exactly the routed rows of the entries whose consumer is `i`, in matrix
order, without touching the fit counters. -/
lemma foldlM_shareStep {ι X Y : Type} (pId : List ((ℕ × ℕ) × ι)) (pX : List ((ℕ × ℕ) × X))
    (costs : ℕ → ι → Y) (r : ℕ × ℕ × ℕ → X × Y) :
    ∀ (mat : List (ℕ × ℕ × ℕ)) (insts : List (OptimInstance X Y)),
    (∀ t ∈ mat, crossEvaluation pId pX costs t.1 t.2.1 t.2.2 = Except.ok (r t)) →
    mat.foldlM (shareStep pId pX costs) insts
      = Except.ok (mapIdxFrom 0
          (fun i o => ⟨o.data ++ ((mat.filter (fun t => decide (t.1 = i))).map r), o.fits⟩)
          insts) := by
  intro mat
  induction mat with
  | nil =>
    intro insts _
    rw [List.foldlM_nil, mapIdxFrom_eq_self _ _ _ (fun i a => by simp)]
    rfl
  | cons t rest ih =>
    intro insts hok
    rw [List.foldlM_cons]
    have hstep : shareStep pId pX costs insts t
        = Except.ok (modifyAt insts t.1 (fun o => ⟨o.data ++ [r t], o.fits⟩)) := by
      rw [shareStep, hok t (List.mem_cons_self t rest)]
      rfl
    rw [hstep]
    show rest.foldlM (shareStep pId pX costs) _ = _
    rw [ih _ (fun t2 ht2 => hok t2 (List.mem_cons_of_mem t ht2))]
    congr 1
    apply List.ext_getElem?
    intro i
    rw [getElem?_mapIdxFrom, getElem?_mapIdxFrom, getElem?_modifyAt]
    by_cases hi : i = t.1
    · rw [if_pos hi]
      cases h : insts[i]? with
      | none => rfl
      | some o =>
        simp only [Option.map_some']
        have hdec : decide (t.1 = i) = true := by simp [hi]
        simp only [Nat.zero_add, List.filter_cons, hdec, if_true, List.map_cons]
        congr 1
        simp [OptimInstance.mk.injEq, List.append_assoc]
    · rw [if_neg hi]
      cases h : insts[i]? with
      | none => rfl
      | some o =>
        simp only [Option.map_some']
        have hdec : decide (t.1 = i) = false := by simp; omega
        simp only [Nat.zero_add, List.filter_cons, hdec]
        rfl

/-! ## Claims C4, C7, C9, C10 -/

/-- Claim C4: after `next_evaluation_circuits`, the ledger holds exactly `n`
entries for modes `independent` / `shared` and exactly `n(n+1)/2` for `left` /
`right` (so the count assertion passes), and for `left` / `right` that count
equals the `n` real points plus the padding writes — strictly fewer than the
`n²` sharing-matrix entries once `n ≥ 2`. -/
theorem c4_request_round_ledger_count (method : String) (n : ℕ) (hn : 1 ≤ n)
    (hm : method ∈ recognizedMethods) :
    countAssert method n (requestRoundKeys method n).toFinset.card = true ∧
    ((method = "independent" ∨ method = "shared") →
      (requestRoundKeys method n).toFinset.card = n) ∧
    ((method = "left" ∨ method = "right") →
      (requestRoundKeys method n).toFinset.card = n * (n + 1) / 2 ∧
      (requestRoundKeys method n).toFinset.card
        = n + (paddingWrites (genSharingMatrix method n)).length ∧
      (2 ≤ n →
        (requestRoundKeys method n).toFinset.card < (genSharingMatrix method n).length)) := by
  refine ⟨countAssert_keys method n hm, ?_, ?_⟩
  · rintro (rfl | rfl)
    · exact card_keys_independent n
    · exact card_keys_shared n
  · rintro (rfl | rfl)
    · refine ⟨card_keys_left_eq n, card_keys_left_as_sum n, ?_⟩
      intro h2
      rw [length_genSharingMatrix_left]
      have h := card_keys_left n
      have hA : 2 * n ≤ n * n := by nlinarith
      have he : n * (n + 1) = n * n + n := by ring
      omega
    · refine ⟨card_keys_right_eq n, card_keys_right_as_sum n, ?_⟩
      intro h2
      rw [length_genSharingMatrix_right]
      have h := card_keys_right n
      have hA : 2 * n ≤ n * n := by nlinarith
      have he : n * (n + 1) = n * n + n := by ring
      omega

/-- Witness for C4 at mode `left`, `n = 2`. -/
theorem c4_request_round_ledger_count_witness :
    1 ≤ 2 ∧ "left" ∈ recognizedMethods ∧
    (countAssert "left" 2 (requestRoundKeys "left" 2).toFinset.card = true ∧
      (("left" = "independent" ∨ "left" = "shared") →
        (requestRoundKeys "left" 2).toFinset.card = 2) ∧
      (("left" = "left" ∨ "left" = "right") →
        (requestRoundKeys "left" 2).toFinset.card = 2 * (2 + 1) / 2 ∧
        (requestRoundKeys "left" 2).toFinset.card
          = 2 + (paddingWrites (genSharingMatrix "left" 2)).length ∧
        (2 ≤ 2 →
          (requestRoundKeys "left" 2).toFinset.card < (genSharingMatrix "left" 2).length))) :=
  ⟨by decide, by decide, c4_request_round_ledger_count "left" 2 (by decide) (by decide)⟩

/-- Claim C7: `next_evaluation_circuits` starts by re-assigning
`self._parallel_id = {}` / `self._parallel_x = {}`, so running the request
phase twice without an intervening update leaves a ledger identical to the one
produced from an empty previous ledger: every entry carries a key and id
recorded by the second call alone, and the entry count is the expected count
for that round alone. -/
theorem c7_round_isolation {ι : Type} (method : String) (n : ℕ) (hn : 1 ≤ n)
    (hm : method ∈ recognizedMethods) (idf1 idf2 : ℕ × ℕ → ι)
    (prev : List ((ℕ × ℕ) × ι)) :
    nextEvalLedger method n idf2 (nextEvalLedger method n idf1 prev)
      = nextEvalLedger method n idf2 [] ∧
    (∀ e ∈ nextEvalLedger method n idf2 (nextEvalLedger method n idf1 prev),
      ∃ k ∈ requestRoundKeys method n, e = (k, idf2 k)) ∧
    countAssert method n
      (((nextEvalLedger method n idf2 (nextEvalLedger method n idf1 prev)).map
        Prod.fst).toFinset.card) = true ∧
    ((method = "independent" ∨ method = "shared") →
      ((nextEvalLedger method n idf2 (nextEvalLedger method n idf1 prev)).map
        Prod.fst).toFinset.card = n) ∧
    ((method = "left" ∨ method = "right") →
      ((nextEvalLedger method n idf2 (nextEvalLedger method n idf1 prev)).map
        Prod.fst).toFinset.card = n * (n + 1) / 2) := by
  have hmap : (nextEvalLedger method n idf2 (nextEvalLedger method n idf1 prev)).map Prod.fst
      = requestRoundKeys method n := by
    simp [nextEvalLedger, ledgerOfKeys, List.map_map, Function.comp_def]
  refine ⟨rfl, ?_, ?_, ?_, ?_⟩
  · intro e he
    simp only [nextEvalLedger, ledgerOfKeys, List.nil_append, List.mem_map] at he
    obtain ⟨k, hk, rfl⟩ := he
    exact ⟨k, hk, rfl⟩
  · rw [hmap]
    exact countAssert_keys method n hm
  · rw [hmap]
    rintro (rfl | rfl)
    · exact card_keys_independent n
    · exact card_keys_shared n
  · rw [hmap]
    rintro (rfl | rfl)
    · exact card_keys_left_eq n
    · exact card_keys_right_eq n

/-- Witness for C7 at mode `shared`, `n = 2`, with a non-empty stale previous
ledger. -/
theorem c7_round_isolation_witness :
    1 ≤ 2 ∧ "shared" ∈ recognizedMethods ∧
    (nextEvalLedger "shared" 2 (fun k => k.1 + 10 * k.2)
        (nextEvalLedger "shared" 2 (fun k => k.1) [((5, 5), 99)])
      = nextEvalLedger "shared" 2 (fun k => k.1 + 10 * k.2) [] ∧
    (∀ e ∈ nextEvalLedger "shared" 2 (fun k => k.1 + 10 * k.2)
        (nextEvalLedger "shared" 2 (fun k => k.1) [((5, 5), 99)]),
      ∃ k ∈ requestRoundKeys "shared" 2, e = (k, k.1 + 10 * k.2)) ∧
    countAssert "shared" 2
      (((nextEvalLedger "shared" 2 (fun k => k.1 + 10 * k.2)
        (nextEvalLedger "shared" 2 (fun k => k.1) [((5, 5), 99)])).map
        Prod.fst).toFinset.card) = true ∧
    (("shared" = "independent" ∨ "shared" = "shared") →
      ((nextEvalLedger "shared" 2 (fun k => k.1 + 10 * k.2)
        (nextEvalLedger "shared" 2 (fun k => k.1) [((5, 5), 99)])).map
        Prod.fst).toFinset.card = 2) ∧
    (("shared" = "left" ∨ "shared" = "right") →
      ((nextEvalLedger "shared" 2 (fun k => k.1 + 10 * k.2)
        (nextEvalLedger "shared" 2 (fun k => k.1) [((5, 5), 99)])).map
        Prod.fst).toFinset.card = 2 * (2 + 1) / 2)) :=
  ⟨by decide, by decide,
    c7_round_isolation "shared" 2 (by decide) (by decide) _ _ _⟩

/-- Claim C9: a `_cross_evaluation` whose `(requesterIndex, pointIndex)` pair
is absent from the current round's `_parallel_id` ledger fails with
`unknownRequest` (the Python `KeyError` on the dict subscript); the miss is
raised, never defaulted. -/
theorem c9_ledger_miss_raises {ι X Y : Type} (pId : List ((ℕ × ℕ) × ι))
    (pX : List ((ℕ × ℕ) × X)) (costs : ℕ → ι → Y) (e r p : ℕ)
    (hmiss : lookupLedger pId (r, p) = none) :
    crossEvaluation pId pX costs e r p = Except.error CoreError.unknownRequest := by
  cases h2 : lookupLedger pX (r, p) <;>
    simp [crossEvaluation, hmiss, h2]

/-- Witness for C9 on an empty ledger. -/
theorem c9_ledger_miss_raises_witness :
    lookupLedger ([] : List ((ℕ × ℕ) × ℕ)) (0, 0) = none ∧
    crossEvaluation ([] : List ((ℕ × ℕ) × ℕ)) ([] : List ((ℕ × ℕ) × ℕ))
        (fun _ i => i) 0 0 0 = Except.error CoreError.unknownRequest :=
  ⟨rfl, c9_ledger_miss_raises [] [] (fun _ i => i) 0 0 0 rfl⟩

/-- Claim C10: for every recognised mode and every `n`, every
`(generator, point)` pair occurring in a sharing-matrix entry is a key the
request phase records, so every ledger lookup the subsequent `update` performs
over the sharing matrix succeeds — `_cross_evaluation` returns the recorded
coordinate and the consumer's decoding of the recorded id, and the
missing-key error branch is unreachable in that round. -/
theorem c10_update_lookups_succeed {ι X : Type} (method : String) (n : ℕ)
    (hm : method ∈ recognizedMethods) (t : ℕ × ℕ × ℕ)
    (ht : t ∈ genSharingMatrix method n) (idf : ℕ × ℕ → ι) (xf : ℕ × ℕ → X) :
    (t.2.1, t.2.2) ∈ requestRoundKeys method n ∧
    ∀ (Y : Type) (costs : ℕ → ι → Y),
      crossEvaluation (ledgerOfKeys (requestRoundKeys method n) idf)
          (ledgerOfKeys (requestRoundKeys method n) xf) costs t.1 t.2.1 t.2.2
        = Except.ok (xf (t.2.1, t.2.2), costs t.1 (idf (t.2.1, t.2.2))) := by
  have hk := sharing_key_mem_requestRoundKeys hm ht
  exact ⟨hk, fun Y costs => crossEvaluation_ok _ idf xf costs t.1 t.2.1 t.2.2 hk⟩

/-- Witness for C10 at mode `left`, `n = 2`, on the padding-backed entry
`(0, 0, 1)`. -/
theorem c10_update_lookups_succeed_witness :
    "left" ∈ recognizedMethods ∧ ((0, 0, 1) : ℕ × ℕ × ℕ) ∈ genSharingMatrix "left" 2 ∧
    (((0, 0, 1) : ℕ × ℕ × ℕ).2.1, ((0, 0, 1) : ℕ × ℕ × ℕ).2.2) ∈ requestRoundKeys "left" 2 ∧
    ∀ (Y : Type) (costs : ℕ → ℕ → Y),
      crossEvaluation (ledgerOfKeys (requestRoundKeys "left" 2) (fun k => k.1 + 10 * k.2))
          (ledgerOfKeys (requestRoundKeys "left" 2) (fun k => k.2)) costs 0 0 1
        = Except.ok ((fun k : ℕ × ℕ => k.2) (0, 1),
            costs 0 ((fun k : ℕ × ℕ => k.1 + 10 * k.2) (0, 1))) :=
  ⟨by decide, by decide,
    c10_update_lookups_succeed "left" 2 (by decide) (0, 0, 1) (by decide)
      (fun k => k.1 + 10 * k.2) (fun k => k.2)⟩

/-! ## Claim C5 -/

/-- Claim C5: given any ledger that records, for every sharing entry
`(evl, req, par)` of the static sharing matrix, an id `idf (req, par)` and a
coordinate `xf (req, par)`, the update call succeeds and turns each instance
`i` of the pool into: its previous observation rows followed by, in matrix
order, one routed row `(xf (req, par), costs i (idf (req, par)))` for every
sharing entry whose consumer is `i`; the fit counter rises by exactly one.
Every append is performed by the first loop of `update`, the single refit per
instance by the second loop, after all appends (`updatePool` sequences the
fold before the map). -/
theorem c5_update_routes_observations_then_refits {ι X Y : Type} (method : String) (n : ℕ)
    (hm : method ∈ recognizedMethods) (pId : List ((ℕ × ℕ) × ι)) (pX : List ((ℕ × ℕ) × X))
    (idf : ℕ × ℕ → ι) (xf : ℕ × ℕ → X) (costs : ℕ → ι → Y)
    (insts : List (OptimInstance X Y)) (hlen : insts.length = n)
    (hId : ∀ t ∈ genSharingMatrix method n,
      lookupLedger pId (t.2.1, t.2.2) = some (idf (t.2.1, t.2.2)))
    (hX : ∀ t ∈ genSharingMatrix method n,
      lookupLedger pX (t.2.1, t.2.2) = some (xf (t.2.1, t.2.2))) :
    updatePool (genSharingMatrix method n) pId pX costs insts
      = Except.ok (mapIdxFrom 0
          (fun i o => ⟨o.data ++
            (((genSharingMatrix method n).filter (fun t => decide (t.1 = i))).map
              (fun t => (xf (t.2.1, t.2.2), costs i (idf (t.2.1, t.2.2))))),
            o.fits + 1⟩) insts) := by
  have hok : ∀ t ∈ genSharingMatrix method n, crossEvaluation pId pX costs t.1 t.2.1 t.2.2
      = Except.ok (xf (t.2.1, t.2.2), costs t.1 (idf (t.2.1, t.2.2))) := by
    intro t ht
    rw [crossEvaluation, hId t ht, hX t ht]
  rw [updatePool, foldlM_shareStep pId pX costs _ (genSharingMatrix method n) insts hok]
  show Except.ok (List.map _ (mapIdxFrom 0 _ insts)) = _
  rw [map_mapIdxFrom]
  apply congrArg Except.ok
  apply mapIdxFrom_congr
  intro i hi a
  simp only [Nat.zero_add, OptimInstance.mk.injEq, and_true]
  congr 1
  apply List.map_congr_left
  intro t ht
  have heq : t.1 = i := by
    have := (List.mem_filter.mp ht).2
    simpa using this
  rw [heq]

/-- Witness for C5 at mode `independent`, `n = 1`, on a one-instance pool
with a concrete one-entry ledger. -/
theorem c5_update_routes_observations_then_refits_witness :
    "independent" ∈ recognizedMethods ∧
    ([(⟨[], 0⟩ : OptimInstance ℕ ℕ)]).length = 1 ∧
    (∀ t ∈ genSharingMatrix "independent" 1,
      lookupLedger [((0, 0), 5)] (t.2.1, t.2.2)
        = some ((fun _ : ℕ × ℕ => 5) (t.2.1, t.2.2))) ∧
    (∀ t ∈ genSharingMatrix "independent" 1,
      lookupLedger [((0, 0), 3)] (t.2.1, t.2.2)
        = some ((fun _ : ℕ × ℕ => 3) (t.2.1, t.2.2))) ∧
    updatePool (genSharingMatrix "independent" 1) [((0, 0), 5)] [((0, 0), 3)]
        (fun e i => e + i) [(⟨[], 0⟩ : OptimInstance ℕ ℕ)]
      = Except.ok (mapIdxFrom 0
          (fun i o => ⟨o.data ++
            (((genSharingMatrix "independent" 1).filter (fun t => decide (t.1 = i))).map
              (fun t => ((fun _ : ℕ × ℕ => 3) (t.2.1, t.2.2),
                (fun (e c : ℕ) => e + c) i ((fun _ : ℕ × ℕ => 5) (t.2.1, t.2.2))))),
            o.fits + 1⟩) [(⟨[], 0⟩ : OptimInstance ℕ ℕ)]) :=
  ⟨by decide, rfl, by decide, by decide,
    c5_update_routes_observations_then_refits "independent" 1 (by decide)
      [((0, 0), 5)] [((0, 0), 3)] (fun _ : ℕ × ℕ => 5) (fun _ : ℕ × ℕ => 3)
      (fun e c : ℕ => e + c) [(⟨[], 0⟩ : OptimInstance ℕ ℕ)]
      rfl (by decide) (by decide)⟩

/-! ## Lemmas and claim C8: the initialisation phase -/

lemma flatMap_single {β : Type} (row : ℕ → List β) :
    ∀ (n i : ℕ), i < n →
    (List.range n).flatMap (fun c => if c = i then row c else []) = row i := by
  intro n
  induction n with
  | zero => intro i hi; omega
  | succ m ih =>
    intro i hi
    rw [List.range_succ, List.flatMap_append]
    by_cases h : i < m
    · rw [ih i h]
      have hm : ¬ m = i := by omega
      simp [hm]
    · have him : i = m := by omega
      subst him
      have hz : (List.range i).flatMap (fun c => if c = i then row c else []) = [] := by
        rw [List.flatMap_eq_nil_iff]
        intro c hc
        rw [List.mem_range] at hc
        exact if_neg (by omega)
      rw [hz]
      simp

lemma filter_initSharingMatrix (share : Bool) (n nb i : ℕ) (hi : i < n) :
    (initSharingMatrix share n nb).filter (fun t => decide (t.1 = i))
      = (List.range nb).map (fun run => ((i : ℕ), (if share then (0 : ℕ) else i), run)) := by
  have hrow : ∀ g0 : ℕ, ∀ cc : ℕ,
      ((List.range nb).map (fun run => ((cc : ℕ), (g0 : ℕ), run))).filter
          (fun t => decide (t.1 = i))
        = if cc = i then (List.range nb).map (fun run => ((cc : ℕ), (g0 : ℕ), run)) else [] := by
    intro g0 cc
    rw [filter_map']
    by_cases h : cc = i
    · rw [if_pos h, List.filter_eq_self.mpr]
      intro run _
      simp [h]
    · rw [if_neg h, List.filter_eq_nil_iff.mpr, List.map_nil]
      intro run _
      simp [h]
  cases share
  · show ((List.range n).flatMap
        (fun cc => (List.range nb).map (fun run => (cc, cc, run)))).filter _ = _
    rw [filter_flatMap']
    have hcong : (List.range n).flatMap (fun cc =>
          ((List.range nb).map (fun run => ((cc : ℕ), (cc : ℕ), run))).filter
            (fun t => decide (t.1 = i)))
        = (List.range n).flatMap (fun cc =>
          if cc = i then (List.range nb).map (fun run => ((cc : ℕ), (cc : ℕ), run)) else []) := by
      apply congrArg
      funext cc
      exact hrow cc cc
    rw [hcong, flatMap_single (fun cc => (List.range nb).map (fun run => (cc, cc, run))) n i hi]
    rfl
  · show ((List.range n).flatMap
        (fun cc => (List.range nb).map (fun run => (cc, 0, run)))).filter _ = _
    rw [filter_flatMap']
    have hcong : (List.range n).flatMap (fun cc =>
          ((List.range nb).map (fun run => ((cc : ℕ), (0 : ℕ), run))).filter
            (fun t => decide (t.1 = i)))
        = (List.range n).flatMap (fun cc =>
          if cc = i then (List.range nb).map (fun run => ((cc : ℕ), (0 : ℕ), run)) else []) := by
      apply congrArg
      funext cc
      exact hrow 0 cc
    rw [hcong, flatMap_single (fun cc => (List.range nb).map (fun run => (cc, 0, run))) n i hi]
    rfl

lemma initSharing_key_mem (share : Bool) (n nb : ℕ) :
    ∀ t ∈ initSharingMatrix share n nb, (t.2.1, t.2.2) ∈ genInitKeys share n nb := by
  intro t ht
  cases share
  · replace ht : t ∈ (List.range n).flatMap
        (fun cc => (List.range nb).map (fun run => ((cc : ℕ), (cc : ℕ), run))) := ht
    simp only [List.mem_flatMap, List.mem_map, List.mem_range] at ht
    obtain ⟨cc, hcc, run, hrun, rfl⟩ := ht
    show ((cc, run) : ℕ × ℕ) ∈ genInitKeys false n nb
    show ((cc, run) : ℕ × ℕ) ∈ (List.range n).flatMap
      (fun cstIdx => (List.range nb).map (fun ptIdx => (cstIdx, ptIdx)))
    simp only [List.mem_flatMap, List.mem_map, List.mem_range]
    exact ⟨cc, hcc, run, hrun, rfl⟩
  · replace ht : t ∈ (List.range n).flatMap
        (fun cc => (List.range nb).map (fun run => ((cc : ℕ), (0 : ℕ), run))) := ht
    simp only [List.mem_flatMap, List.mem_map, List.mem_range] at ht
    obtain ⟨cc, hcc, run, hrun, rfl⟩ := ht
    show ((0, run) : ℕ × ℕ) ∈ genInitKeys true n nb
    show ((0, run) : ℕ × ℕ) ∈ (List.range 1).flatMap
      (fun cstIdx => (List.range nb).map (fun ptIdx => (cstIdx, ptIdx)))
    simp only [List.mem_flatMap, List.mem_map, List.mem_range]
    exact ⟨0, by omega, run, hrun, rfl⟩

/-- Claim C8: the initialisation phase.  With `share_init` true,
`gen_init_circuits` records a single batch of `nb_init` points under generator
index `0` only, and `init_optimisers` hands every one of the `n` instances
that same batch — instance `i` receives the rows
`(xf (0, run), costs i (idf (0, run)))` for `run < nb_init`, the same
coordinates for every instance.  With `share_init` false, each instance `i`
receives its own independently recorded batch `(xf (i, run), ...)`.  In both
cases each instance's model is then fit exactly once (`fits + 1`, the
`run_optimization(max_iter=0, eps=0)` call) with no further point proposal. -/
theorem c8_init_batches_and_single_fit {ι X Y : Type} (share : Bool) (n nbInit : ℕ)
    (hn : 1 ≤ n) (idf : ℕ × ℕ → ι) (xf : ℕ × ℕ → X) (costs : ℕ → ι → Y)
    (insts : List (OptimInstance X Y)) (hlen : insts.length = n) :
    initOptimisers share n nbInit idf xf costs insts
      = Except.ok (mapIdxFrom 0
          (fun i o => ⟨o.data ++ (List.range nbInit).map (fun run =>
              (xf ((if share then 0 else i), run),
                costs i (idf ((if share then 0 else i), run)))),
            o.fits + 1⟩) insts) ∧
    (share = true → genInitKeys share n nbInit = (List.range nbInit).map (fun p => (0, p))) ∧
    (share = false → genInitKeys share n nbInit
        = (List.range n).flatMap (fun c => (List.range nbInit).map (fun p => (c, p)))) := by
  refine ⟨?_, ?_, ?_⟩
  · have hok : ∀ t ∈ initSharingMatrix share n nbInit,
        crossEvaluation (ledgerOfKeys (genInitKeys share n nbInit) idf)
            (ledgerOfKeys (genInitKeys share n nbInit) xf) costs t.1 t.2.1 t.2.2
          = Except.ok (xf (t.2.1, t.2.2), costs t.1 (idf (t.2.1, t.2.2))) := by
      intro t ht
      exact crossEvaluation_ok _ idf xf costs t.1 t.2.1 t.2.2
        (initSharing_key_mem share n nbInit t ht)
    rw [initOptimisers, foldlM_shareStep _ _ costs _ (initSharingMatrix share n nbInit)
      insts hok]
    show Except.ok (List.map _ (mapIdxFrom 0 _ insts)) = _
    rw [map_mapIdxFrom]
    apply congrArg Except.ok
    apply mapIdxFrom_congr
    intro i hi a
    rw [hlen] at hi
    simp only [Nat.zero_add, OptimInstance.mk.injEq, and_true]
    congr 1
    rw [filter_initSharingMatrix share n nbInit i hi, List.map_map]
    rfl
  · rintro rfl
    show (List.range 1).flatMap
        (fun cstIdx => (List.range nbInit).map (fun ptIdx => (cstIdx, ptIdx)))
      = _
    rw [show List.range 1 = [0] from rfl]
    simp
  · rintro rfl
    rfl

/-- Witness for C8 with `share_init = true`, `n = 1`, `nb_init = 2`. -/
theorem c8_init_batches_and_single_fit_witness :
    1 ≤ 1 ∧ ([(⟨[], 0⟩ : OptimInstance ℕ ℕ)]).length = 1 ∧
    (initOptimisers true 1 2 (fun k => 10 * k.2) (fun k => k.2) (fun e c => e + c)
        [(⟨[], 0⟩ : OptimInstance ℕ ℕ)]
      = Except.ok (mapIdxFrom 0
          (fun i o => ⟨o.data ++ (List.range 2).map (fun run =>
              ((fun k : ℕ × ℕ => k.2) ((if true then 0 else i), run),
                (fun e c : ℕ => e + c) i
                  ((fun k : ℕ × ℕ => 10 * k.2) ((if true then 0 else i), run)))),
            o.fits + 1⟩) [(⟨[], 0⟩ : OptimInstance ℕ ℕ)]) ∧
    (true = true → genInitKeys true 1 2 = (List.range 2).map (fun p => (0, p))) ∧
    (true = false → genInitKeys true 1 2
        = (List.range 1).flatMap (fun c => (List.range 2).map (fun p => (c, p))))) :=
  ⟨by decide, rfl,
    c8_init_batches_and_single_fit true 1 2 (by decide) (fun k => 10 * k.2)
      (fun k => k.2) (fun e c => e + c) [(⟨[], 0⟩ : OptimInstance ℕ ℕ)] rfl⟩

/-! ## Lemmas: the padding synthesiser (claim C3) -/

lemma min3_shift (δ c : ℝ) (hδ : |δ| ≤ Real.pi)
    (hc : c = δ ∨ c = δ - 2*Real.pi ∨ c = δ + 2*Real.pi) :
    min (min (c^2) ((c + 2*Real.pi)^2)) ((c - 2*Real.pi)^2) = δ^2 := by
  have hπ := Real.pi_pos
  have habs := abs_le.mp hδ
  rcases hc with rfl | rfl | rfl
  · have hin : min (c^2) ((c + 2*Real.pi)^2) = c^2 := min_eq_left (by nlinarith)
    rw [hin]
    exact min_eq_left (by nlinarith)
  · have h1 : δ - 2*Real.pi + 2*Real.pi = δ := by ring
    have h2 : δ - 2*Real.pi - 2*Real.pi = δ - 4*Real.pi := by ring
    rw [h1, h2]
    have hin : min ((δ - 2*Real.pi)^2) (δ^2) = δ^2 := min_eq_right (by nlinarith)
    rw [hin]
    exact min_eq_left (by nlinarith)
  · have h1 : δ + 2*Real.pi - 2*Real.pi = δ := by ring
    have h2 : δ + 2*Real.pi + 2*Real.pi = δ + 4*Real.pi := by ring
    rw [h1, h2]
    exact min_eq_right (le_min (by nlinarith) (by nlinarith))

lemma padding_coord (gk δ : ℝ) (hg0 : 0 ≤ gk) (hg1 : gk < 2*Real.pi) (hδ : |δ| ≤ Real.pi) :
    min (min ((rmod (gk + δ) (2*Real.pi) - gk)^2)
          ((rmod (gk + δ) (2*Real.pi) + 2*Real.pi - gk)^2))
        ((rmod (gk + δ) (2*Real.pi) - 2*Real.pi - gk)^2) = δ^2 := by
  have hπ := Real.pi_pos
  have h2π : (0:ℝ) < 2*Real.pi := by linarith
  have habs := abs_le.mp hδ
  obtain ⟨m, hm⟩ : ∃ m : ℤ, m = ⌊(gk + δ) / (2*Real.pi)⌋ := ⟨_, rfl⟩
  have hfl : (m : ℝ) ≤ (gk + δ) / (2*Real.pi) := hm ▸ Int.floor_le _
  have hfl2 : (gk + δ) / (2*Real.pi) < m + 1 := hm ▸ Int.lt_floor_add_one _
  have hml : (m : ℝ) * (2*Real.pi) ≤ gk + δ := (le_div_iff₀ h2π).mp hfl
  have hmu : gk + δ < ((m : ℝ) + 1) * (2*Real.pi) := (div_lt_iff₀ h2π).mp hfl2
  have hm0 : m = 0 ∨ m = 1 ∨ m = -1 := by
    have hlt : (m : ℝ) < 2 := by nlinarith
    have hgt : (-2 : ℝ) < (m : ℝ) := by nlinarith
    have hlt2 : m < 2 := by exact_mod_cast hlt
    have hgt2 : (-2 : ℤ) < m := by exact_mod_cast hgt
    omega
  have hval : rmod (gk + δ) (2*Real.pi) = gk + δ - 2*Real.pi * m := by
    rw [rmod, ← hm]
  have e1 : rmod (gk + δ) (2*Real.pi) + 2*Real.pi - gk
      = (rmod (gk + δ) (2*Real.pi) - gk) + 2*Real.pi := by ring
  have e2 : rmod (gk + δ) (2*Real.pi) - 2*Real.pi - gk
      = (rmod (gk + δ) (2*Real.pi) - gk) - 2*Real.pi := by ring
  rw [e1, e2]
  apply min3_shift δ _ hδ
  rcases hm0 with rfl | rfl | rfl
  · left; rw [hval]; push_cast; ring
  · right; left; rw [hval]; push_cast; ring
  · right; right; rw [hval]; push_cast; ring

/-! ## Claim C3 -/

/-- Claim C3, counterexample: with `d = 2`, generator point `g = (0, 0)`,
partner point `p = (π, π)` and unit direction `u = (1, 0)`, the separation is
`dist = √2·π > π`, and after the modulo-2π wrap the synthesised padding point
lies at periodic distance `2π − √2·π ≠ √2·π` from `g`.  The gap
`(2 − 2√2)π ≈ −2.6` is far beyond any floating-point tolerance, refuting the
claim that the padding point always sits at distance exactly `dist` from its
generator. -/
theorem c3_padding_distance_counterexample :
    (∑ k in Finset.range 2, ((fun k => if k = 0 then (1:ℝ) else 0) k)^2) = 1 ∧
    findMinDist 2 (paddingPoint 2 (fun _ => 0) (findMinDist 2 (fun _ => 0) (fun _ => Real.pi))
        (fun k => if k = 0 then 1 else 0)) (fun _ => 0)
      ≠ findMinDist 2 (fun _ => 0) (fun _ => Real.pi) := by
  have hπ := Real.pi_pos
  have hs0 : (0:ℝ) ≤ 2 := by norm_num
  have hs2 : Real.sqrt 2 ^ 2 = 2 := Real.sq_sqrt hs0
  have hsnn : 0 ≤ Real.sqrt 2 := Real.sqrt_nonneg 2
  have hs1 : 1 < Real.sqrt 2 := by nlinarith
  have hs15 : Real.sqrt 2 < 1.5 := by nlinarith
  constructor
  · rw [Finset.sum_range_succ, Finset.sum_range_succ, Finset.sum_range_zero]
    norm_num
  · have hA : findMinDist 2 (fun _ => (0:ℝ)) (fun _ => Real.pi) = Real.sqrt 2 * Real.pi := by
      rw [findMinDist, minDispSq]
      rw [Finset.sum_range_succ, Finset.sum_range_succ, Finset.sum_range_zero]
      have h1 : ((0:ℝ) - Real.pi)^2 = Real.pi^2 := by ring
      have h2 : ((0:ℝ) + 2*Real.pi - Real.pi)^2 = Real.pi^2 := by ring
      have h3 : ((0:ℝ) - 2*Real.pi - Real.pi)^2 = 9*Real.pi^2 := by ring
      simp only [h1, h2, h3]
      rw [min_self, min_eq_left (by nlinarith)]
      rw [show (0:ℝ) + Real.pi^2 + Real.pi^2 = 2 * Real.pi^2 by ring]
      rw [Real.sqrt_mul hs0, Real.sqrt_sq (le_of_lt hπ)]
    rw [hA]
    have hfloor : ⌊Real.sqrt 2 * Real.pi / (2*Real.pi)⌋ = 0 := by
      apply Int.floor_eq_zero_iff.mpr
      constructor
      · positivity
      · rw [div_lt_one (by linarith)]
        nlinarith
    have hB0 : paddingPoint 2 (fun _ => 0) (Real.sqrt 2 * Real.pi) (fun k => if k = 0 then 1 else 0) 0
        = Real.sqrt 2 * Real.pi := by
      simp only [paddingPoint]
      norm_num
      rw [rmod, hfloor]
      push_cast
      ring
    have hB1 : ∀ k, k ≠ 0 →
        paddingPoint 2 (fun _ => 0) (Real.sqrt 2 * Real.pi) (fun k => if k = 0 then 1 else 0) k
        = 0 := by
      intro k hk
      simp only [paddingPoint, rmod, if_neg hk, mul_zero, add_zero]
      rw [show (0:ℝ) / (2*Real.pi) = 0 by ring, Int.floor_zero]
      push_cast
      ring
    have hC : findMinDist 2 (paddingPoint 2 (fun _ => 0) (Real.sqrt 2 * Real.pi)
        (fun k => if k = 0 then 1 else 0)) (fun _ => 0) = 2*Real.pi - Real.sqrt 2 * Real.pi := by
      rw [findMinDist, minDispSq]
      rw [Finset.sum_range_succ, Finset.sum_range_succ, Finset.sum_range_zero]
      rw [hB0, hB1 1 (by norm_num)]
      have h1 : (Real.sqrt 2 * Real.pi - 0)^2 = (Real.sqrt 2 * Real.pi)^2 := by ring
      have h2 : (Real.sqrt 2 * Real.pi + 2*Real.pi - 0)^2 = (Real.sqrt 2 * Real.pi + 2*Real.pi)^2 := by
        ring
      have h3 : (Real.sqrt 2 * Real.pi - 2*Real.pi - 0)^2 = (Real.sqrt 2 * Real.pi - 2*Real.pi)^2 := by
        ring
      rw [h1, h2, h3]
      have hin : min ((Real.sqrt 2 * Real.pi)^2) ((Real.sqrt 2 * Real.pi + 2*Real.pi)^2)
          = (Real.sqrt 2 * Real.pi)^2 := min_eq_left (by nlinarith)
      rw [hin]
      have hout : min ((Real.sqrt 2 * Real.pi)^2) ((Real.sqrt 2 * Real.pi - 2*Real.pi)^2)
          = (Real.sqrt 2 * Real.pi - 2*Real.pi)^2 :=
        min_eq_right (by nlinarith [mul_pos hπ hπ, hs1])
      rw [hout]
      have hz1 : ((0:ℝ) - 0)^2 = 0 := by ring
      have hz2 : ((0:ℝ) + 2*Real.pi - 0)^2 = 4*Real.pi^2 := by ring
      have hz3 : ((0:ℝ) - 2*Real.pi - 0)^2 = 4*Real.pi^2 := by ring
      rw [hz1, hz2, hz3]
      have hz4 : min (0:ℝ) (4*Real.pi^2) = 0 := min_eq_left (by positivity)
      rw [hz4]
      have hz5 : min (0:ℝ) (4*Real.pi^2) = 0 := min_eq_left (by positivity)
      rw [hz5]
      rw [show (0:ℝ) + (Real.sqrt 2 * Real.pi - 2*Real.pi)^2 + 0
          = (2*Real.pi - Real.sqrt 2 * Real.pi)^2 by ring]
      rw [Real.sqrt_sq (by nlinarith [mul_pos hπ hπ, hs15])]
    rw [hC]
    intro h
    nlinarith [mul_pos (sub_pos.mpr hs1) hπ]

/-- Claim C3, amended: the synthesised padding point lies at periodic distance
exactly `dist = findMinDist d g p` from the generator point `g` whenever that
separation is at most `π` (and `g` has all coordinates in `[0, 2π)`), for any
dimension `d` and any unit direction `u`.  The counterexample above shows the
restriction `dist ≤ π` is necessary: for `dist > π` (reachable once `d ≥ 2`)
the modulo-2π wrap can leave the padding point strictly closer to `g`. -/
theorem c3_padding_distance_amended (d : ℕ) (g p u : ℕ → ℝ)
    (hg : ∀ k < d, 0 ≤ g k ∧ g k < 2*Real.pi)
    (hu : ∑ k in Finset.range d, (u k)^2 = 1)
    (hdist : findMinDist d g p ≤ Real.pi) :
    findMinDist d (paddingPoint d g (findMinDist d g p) u) g = findMinDist d g p := by
  have hd0 : 0 ≤ findMinDist d g p := Real.sqrt_nonneg _
  have hsum : minDispSq d (paddingPoint d g (findMinDist d g p) u) g
      = ∑ k in Finset.range d, (findMinDist d g p * u k)^2 := by
    apply Finset.sum_congr rfl
    intro k hk
    rw [Finset.mem_range] at hk
    have huk : (u k)^2 ≤ 1 := by
      rw [← hu]
      exact Finset.single_le_sum (fun i _ => sq_nonneg (u i)) (Finset.mem_range.mpr hk)
    have habs : |findMinDist d g p * u k| ≤ Real.pi := by
      rw [abs_mul, abs_of_nonneg hd0]
      calc findMinDist d g p * |u k| ≤ findMinDist d g p * 1 :=
            mul_le_mul_of_nonneg_left ((sq_le_one_iff_abs_le_one (u k)).mp huk) hd0
        _ = findMinDist d g p := mul_one _
        _ ≤ Real.pi := hdist
    have := padding_coord (g k) (findMinDist d g p * u k) (hg k hk).1 (hg k hk).2 habs
    simpa [paddingPoint] using this
  have hsum2 : ∑ k in Finset.range d, (findMinDist d g p * u k)^2 = (findMinDist d g p)^2 := by
    simp only [mul_pow]
    rw [← Finset.mul_sum, hu, mul_one]
  rw [findMinDist, hsum, hsum2, Real.sqrt_sq hd0]

/-- Witness for the amended C3 at `d = 1`, `g = p = 0`, `u = 1` (separation
`dist = 0 ≤ π`). -/
theorem c3_padding_distance_amended_witness :
    (∀ k < 1, 0 ≤ (fun _ : ℕ => (0:ℝ)) k ∧ (fun _ : ℕ => (0:ℝ)) k < 2*Real.pi) ∧
    (∑ k in Finset.range 1, ((fun _ : ℕ => (1:ℝ)) k)^2 = 1) ∧
    findMinDist 1 (fun _ => (0:ℝ)) (fun _ => (0:ℝ)) ≤ Real.pi ∧
    findMinDist 1 (paddingPoint 1 (fun _ => (0:ℝ))
        (findMinDist 1 (fun _ => (0:ℝ)) (fun _ => (0:ℝ))) (fun _ => (1:ℝ)))
      (fun _ => (0:ℝ)) = findMinDist 1 (fun _ => (0:ℝ)) (fun _ => (0:ℝ)) := by
  have h0 : findMinDist 1 (fun _ => (0:ℝ)) (fun _ => (0:ℝ)) = 0 := by
    rw [findMinDist, minDispSq, Finset.sum_range_succ, Finset.sum_range_zero]
    have e1 : ((0:ℝ) - 0)^2 = 0 := by ring
    have e2 : ((0:ℝ) + 2*Real.pi - 0)^2 = 4*Real.pi^2 := by ring
    have e3 : ((0:ℝ) - 2*Real.pi - 0)^2 = 4*Real.pi^2 := by ring
    rw [e1, e2, e3]
    have hz : min (0:ℝ) (4*Real.pi^2) = 0 := min_eq_left (by positivity)
    rw [hz, hz, zero_add, Real.sqrt_zero]
  refine ⟨fun k _ => ⟨le_refl 0, by positivity⟩, by simp, ?_, ?_⟩
  · rw [h0]; exact Real.pi_nonneg
  · exact c3_padding_distance_amended 1 _ _ _ (fun k _ => ⟨le_refl 0, by positivity⟩)
      (by simp) (by rw [h0]; exact Real.pi_nonneg)

end QcOptim
